import Mathlib

/-!
# TonyHzr/logger: a size-bounded rotating file writer and a logrus hook

A shallow embedding of `rotatelogs/file.go` and `hook/hook.go`, with the parts of
the Go standard library they call (`strings`, `time`, `os`, `sort`) modelled next
to them, followed by theorems about the embedded code.

Conventions

* A Go `string` / `[]byte` is a list of bytes (`GoString`), one list element per byte.
* A call that panics in Go returns `none`.
* `int64` arithmetic is written on `Int` with an explicit two's-complement wrap.
* File-system calls are modelled on one directory, the writer's `absDir`, which
  holds regular files and subdirectories. They succeed (no disk-full, no
  permission error) except that a subdirectory cannot be opened for writing, and
  an open `*os.File` is identified with the name of the file it was opened on.
-/

/-- A Go string: a sequence of bytes. -/
abbrev GoString := List Nat

/-- The bytes of an ASCII text. -/
def bytes (s : String) : GoString := s.toList.map Char.toNat

/-! ## package strings -/

namespace strings

/-- `strings.HasPrefix(s, prefix)`. -/
def HasPrefix (s pre : GoString) : Bool := pre.isPrefixOf s

/-- `strings.HasSuffix(s, suffix)`. -/
def HasSuffix (s suf : GoString) : Bool := suf.isSuffixOf s

/-- `strings.TrimSuffix(s, suffix)`: `s` without the trailing `suffix`, or `s`
itself when it does not end in `suffix`. -/
def TrimSuffix (s suf : GoString) : GoString :=
  if HasSuffix s suf then s.take (s.length - suf.length) else s

end strings

/-! ## package time, for the layout "20060102150405" -/

namespace time

/-- What `t.Date()` and `t.Clock()` return: the calendar fields `Format` prints. -/
structure Civil where
  year : Int
  month : Nat
  day : Nat
  hour : Nat
  minute : Nat
  second : Nat
deriving DecidableEq

/-- A `time.Time`: an instant (nanoseconds) and its calendar fields in the
time's location. `After` compares instants, `Format` prints the fields. -/
structure Time where
  instant : Int
  civil : Civil
deriving DecidableEq

/-- `isLeap(year)`. -/
def isLeap (year : Int) : Bool :=
  year.tmod 4 == 0 && (year.tmod 100 != 0 || year.tmod 400 == 0)

/-- `daysIn(m, year)`: the number of days of month `m` (1 = January). -/
def daysIn (m : Nat) (year : Int) : Nat :=
  if m = 2 && isLeap year then 29
  else [31, 28, 31, 30, 31, 30, 31, 31, 30, 31, 30, 31].getD (m - 1) 0

/-- The calendar fields of a `time.Time` are those of a real date and clock
reading, and the year fits Go's 64-bit `int`. -/
def Civil.valid (c : Civil) : Prop :=
  -9223372036854775808 ≤ c.year ∧ c.year < 9223372036854775808 ∧
  1 ≤ c.month ∧ c.month ≤ 12 ∧ 1 ≤ c.day ∧ c.day ≤ daysIn c.month c.year ∧
  c.hour < 24 ∧ c.minute < 60 ∧ c.second < 60

instance (c : Civil) : Decidable c.valid := by
  unfold Civil.valid; infer_instance

/-- The decimal digits of `u`, most significant first, as bytes; `fuel` bounds
the number of digits (a 64-bit `int` has at most 19). -/
def digits : Nat → Nat → GoString
  | 0, _ => []
  | fuel + 1, u => if u < 10 then [48 + u] else digits fuel (u / 10) ++ [48 + u % 10]

/-- `appendInt(b, x, width)`: the decimal form of `x`, a `-` first when `x < 0`,
zero-padded to `width` digits. -/
def appendInt (b : GoString) (x : Int) (width : Nat) : GoString :=
  let ds := digits 20 x.natAbs
  b ++ (if x < 0 then [45] else []) ++ List.replicate (width - ds.length) 48 ++ ds

/-- `t.Format("20060102150405")`: year (stdLongYear, width 4), then month, day,
hour, minute and second, each zero-padded to two digits. -/
def Time.Format (t : Time) : GoString :=
  let b := appendInt [] t.civil.year 4
  let b := appendInt b t.civil.month 2
  let b := appendInt b t.civil.day 2
  let b := appendInt b t.civil.hour 2
  let b := appendInt b t.civil.minute 2
  appendInt b t.civil.second 2

/-- A byte between `'0'` and `'9'`. -/
def isDigitByte (c : Nat) : Bool := 48 ≤ c && c ≤ 57

/-- `isDigit(s, i)`: `i` is in range and `s[i]` is a decimal digit. -/
def isDigit (s : GoString) (i : Nat) : Bool :=
  match s[i]? with
  | some c => isDigitByte c
  | none => false

/-- `getnum(s, fixed)`: a leading one- or two-digit number and the rest of `s`;
with `fixed` the number must have two digits. -/
def getnum (s : GoString) (fixed : Bool) : Option (Nat × GoString) :=
  if !isDigit s 0 then none
  else if !isDigit s 1 then
    if fixed then none else some (s.headD 0 - 48, s.drop 1)
  else some ((s.getD 0 0 - 48) * 10 + (s.getD 1 0 - 48), s.drop 2)

/-- `leadingInt(s)`: the value of the leading digits of `s` (continuing from
`x`) and what follows them. The overflow guard of the original is left out: it
needs more than 18 digits, and the callers here pass at most 9. -/
def leadingInt : GoString → Nat → Nat × GoString
  | [], x => (x, [])
  | c :: rest, x =>
    if isDigitByte c then leadingInt rest (x * 10 + (c - 48)) else (x, c :: rest)

/-- The value `leadingInt` accumulates over a run of digits. -/
def digitsValue (l : GoString) (x : Nat) : Nat := l.foldl (fun a c => a * 10 + (c - 48)) x

/-- `atoi(s)`: an optional sign and then digits only. -/
def atoi (s : GoString) : Option Int :=
  let neg := s.head? == some 45
  let body := if s.head? == some 45 || s.head? == some 43 then s.drop 1 else s
  match leadingInt body 0 with
  | (q, []) => some (if neg then -(q : Int) else q)
  | _ => none

/-- `commaOrPeriod(b)`. -/
def commaOrPeriod (c : Nat) : Bool := c == 46 || c == 44

/-- The special case after the seconds field (Go 1.17 and later): a fractional
second in the input that the layout does not mention is skipped
(`n := 2; for isDigit(value, n) n++`), whatever its number of digits. -/
def skipFraction (value : GoString) : GoString :=
  if 2 ≤ value.length && commaOrPeriod (value.headD 0) && isDigit value 1 then
    (value.drop 2).dropWhile isDigitByte
  else value

/-- `time.Parse("20060102150405", value)`, `none` standing for a non-nil error.
The fields are read left to right as `Parse` does for this layout; the day is
checked against the month's length at the end. Of the result only the calendar
fields are kept (the nanoseconds of a skipped fraction are dropped). -/
def Parse (value : GoString) : Option Civil :=
  if value.length < 4 || !isDigit value 0 then none else
  match atoi (value.take 4) with
  | none => none
  | some year =>
  match getnum (value.drop 4) true with
  | none => none
  | some (month, value) =>
  if month ≤ 0 || 12 < month then none else
  match getnum value true with
  | none => none
  | some (day, value) =>
  match getnum value false with
  | none => none
  | some (hour, value) =>
  if 24 ≤ hour then none else
  match getnum value true with
  | none => none
  | some (min, value) =>
  if 60 ≤ min then none else
  match getnum value true with
  | none => none
  | some (sec, value) =>
  if 60 ≤ sec then none else
  if skipFraction value ≠ [] then none else
  if day < 1 || day > daysIn month year then none else
  some ⟨year, month, day, hour, min, sec⟩

end time

/-! ## package rotatelogs -/

namespace rotatelogs

/-- The suffix `".log"`. -/
def logSuffix : GoString := [46, 108, 111, 103]

/-- `FileFormat`: names are `Prefix + timestamp + ".log"`. -/
structure FileFormat where
  Prefix : GoString

/-- `(*FileFormat).Format`. -/
def FileFormat.Format (f : FileFormat) (t : time.Time) : GoString :=
  f.Prefix ++ t.Format ++ logSuffix

/-- `(*FileFormat).IsFormat`. The slice expression
`strings.TrimSuffix(s, ".log")[len(f.Prefix):]` panics (`none`) when the trimmed
string is shorter than the prefix. -/
def FileFormat.IsFormat (f : FileFormat) (s : GoString) : Option Bool :=
  if !strings.HasPrefix s f.Prefix then some false
  else
    let trimmed := strings.TrimSuffix s logSuffix
    if f.Prefix.length ≤ trimmed.length then
      some (time.Parse (trimmed.drop f.Prefix.length)).isSome
    else none

end rotatelogs

set_option linter.dupNamespace false

/-! ## package os, on the writer's directory -/

namespace os

/-- A regular file of the directory: its name, content and modification time. -/
structure DiskFile where
  name : GoString
  data : GoString
  modTime : Int
deriving DecidableEq

/-- A subdirectory of the directory: its name, the size the system reports for
it and its modification time. -/
structure SubDir where
  name : GoString
  size : Int
  modTime : Int
deriving DecidableEq

/-- What `ReadDir` reports of an entry (`os.FileInfo`). -/
structure FileInfo where
  Name : GoString
  Size : Int
  ModTime : Int
deriving DecidableEq

/-- The entries of an existing directory: regular files and subdirectories
(a name is used by one entry only). -/
structure Entries where
  files : List DiskFile
  subdirs : List SubDir
deriving DecidableEq

/-- The state of the writer's directory: `none` while it does not exist. -/
abbrev Dir := Option Entries

/-- The existing directory that holds the regular files `fs` and nothing else. -/
def plain (fs : List DiskFile) : Dir := some ⟨fs, []⟩

/-- The regular files of the directory. -/
def files (dir : Dir) : List DiskFile :=
  match dir with
  | none => []
  | some s => s.files

/-- The subdirectories of the directory. -/
def subdirs (dir : Dir) : List SubDir :=
  match dir with
  | none => []
  | some s => s.subdirs

/-- `os.MkdirAll(absDir, os.ModePerm)`: an existing directory is left as it is,
a missing one is created empty. -/
def MkdirAll (dir : Dir) : Dir :=
  match dir with
  | none => some ⟨[], []⟩
  | some s => some s

/-- `ioutil.ReadDir(absDir)`: name, size and modification time of every entry,
regular file or subdirectory. (The entries are reported in stored order; the
only consumer sorts them.) -/
def ReadDir (dir : Dir) : List FileInfo :=
  ((files dir).map fun f => (⟨f.name, f.data.length, f.modTime⟩ : FileInfo)) ++
    (subdirs dir).map fun d => (⟨d.name, d.size, d.modTime⟩ : FileInfo)

/-- The content of the regular file called `name`, if the directory has one. -/
def content (dir : Dir) (name : GoString) : Option GoString :=
  ((files dir).find? fun f => f.name == name).map fun f => f.data

/-- `os.OpenFile(name, O_RDWR|O_CREATE|O_APPEND, 0644)` at time `now`: an
existing file is opened as it is (no truncation), a missing one is created
empty. `none` is a non-nil error: the directory is missing, or `name` is a
subdirectory, which cannot be opened for writing. The handle is `name`. -/
def OpenFile (dir : Dir) (name : GoString) (now : Int) : Option Dir :=
  match dir with
  | none => none
  | some s =>
    if s.subdirs.any (fun d => d.name == name) then none
    else if s.files.any (fun f => f.name == name) then some (some s)
    else some (some ⟨s.files ++ [⟨name, [], now⟩], s.subdirs⟩)

/-- `(*os.File).Write(data)` through a handle opened with `O_APPEND`: the bytes
land at the end of the file the handle names. -/
def Write (dir : Dir) (handle : GoString) (data : GoString) (now : Int) : Dir :=
  dir.map fun s =>
    ⟨s.files.map fun f => if f.name == handle then ⟨f.name, f.data ++ data, now⟩ else f,
      s.subdirs⟩

end os

/-! ## package sort -/

namespace sort

/-- The contract of `sort.Slice(files, less)` for
`less(i, j) = files[i].ModTime().After(files[j].ModTime())`: the result is a
rearrangement of the input in which no entry is followed by a strictly newer
one. The sort is not stable, so nothing else is known of the order. -/
def IsSlice (sorter : List os.FileInfo → List os.FileInfo) : Prop :=
  ∀ l, (sorter l).Perm l ∧ (sorter l).Pairwise fun a b => ¬ b.ModTime > a.ModTime

/-- One sort that meets the contract: insertion of each entry before the first
entry that is not newer. -/
def insertNewestFirst (l : List os.FileInfo) : List os.FileInfo :=
  l.insertionSort fun a b => b.ModTime ≤ a.ModTime

end sort

namespace rotatelogs

/-- The interface `FileFormater`. `IsFormat` returns `none` when the call panics. -/
structure FileFormater where
  Format : time.Time → GoString
  IsFormat : GoString → Option Bool

/-- A `*FileFormat` as a `FileFormater`. -/
def FileFormat.toFormater (f : FileFormat) : FileFormater :=
  ⟨f.Format, f.IsFormat⟩

/-- `defaultFormater = new(FileFormat)`: the empty prefix. -/
def defaultFormater : FileFormater := FileFormat.toFormater ⟨[]⟩

/-- `defaultMaxSize`: 100 MiB. -/
def defaultMaxSize : Int := 100 * 1024 * 1024

/-- An `int64` result: the two's-complement wrap of `x`. -/
def wrapInt64 (x : Int) : Int := (x + 9223372036854775808) % 18446744073709551616 - 9223372036854775808

/-- The writer `file`. Its field `file *os.File` is `handle` here: the name of
the current file inside `absDir`, `none` for a nil `*os.File`. -/
structure file where
  absDir : GoString
  format : FileFormater
  handle : Option GoString
  size : Int
  maxSize : Int

/-- `New(dir, formater, maxSize)`. `Abs` is `filepath.Abs`, returning the path
and an optional error; the result is the pair `(file, err)` that `New` returns. -/
def New (Abs : GoString → GoString × Option GoString) (dir : GoString)
    (formater : Option FileFormater) (maxSize : Int) : file × Option GoString :=
  let f : file := ⟨[], defaultFormater, none, 0, defaultMaxSize⟩
  let f := match formater with
    | some g => { f with format := g }
    | none => f
  let f := if maxSize > 0 then { f with maxSize := maxSize } else f
  if dir = [] then
    ({ f with absDir := (Abs (bytes "log")).1 }, (Abs (bytes "log")).2)
  else
    ({ f with absDir := (Abs dir).1 }, (Abs dir).2)

/-- `(*file).newFile` when `time.Now()` returns `now`: the name of the file it
opens and the directory afterwards; `none` when `openFile` fails. -/
def file.newFile (f : file) (dir : os.Dir) (now : time.Time) : Option (GoString × os.Dir) :=
  let fileName := f.format.Format now
  (os.OpenFile dir fileName now.instant).map fun dir => (fileName, dir)

/-- What a call of `Write` leaves: the writer, the directory, and the returned
`n` and `err != nil`. -/
structure Written where
  f : file
  dir : os.Dir
  n : Nat
  err : Bool

/-- `(*file).write(data)` when `time.Now()` returns `now`; `none` is a panic. A
write through a nil handle returns `ErrInvalid` and writes nothing. -/
def file.write (f : file) (dir : os.Dir) (now : time.Time) (data : GoString) : Option Written :=
  if wrapInt64 (f.size + data.length) ≤ f.maxSize then
    let f : file := { f with size := wrapInt64 (f.size + data.length) }
    match f.handle with
    | some h => some ⟨f, os.Write dir h data now.instant, data.length, false⟩
    | none => some ⟨f, dir, 0, true⟩
  else
    match f.newFile dir now with
    | none => none
    | some (h, dir) =>
      let f : file := { f with handle := some h }
      let f : file := { f with size := data.length }
      some ⟨f, os.Write dir h data now.instant, data.length, false⟩

/-- The loop of `checkFile` over the sorted entries: the first entry that the
formatter recognises and that is smaller than `maxSize`. -/
inductive Scan where
  | panic
  | found (e : os.FileInfo)
  | absent

/-- The `for` loop of `checkFile`. -/
def file.scan (f : file) : List os.FileInfo → Scan
  | [] => Scan.absent
  | e :: rest =>
    match f.format.IsFormat e.Name with
    | none => Scan.panic
    | some false => f.scan rest
    | some true => if e.Size ≥ f.maxSize then f.scan rest else Scan.found e

/-- `(*file).checkFile()` when `time.Now()` returns `now` and `sort.Slice`
orders the entries as `sorter` does. `none`: the call does not return nil, because
`IsFormat` panics or because opening the file fails and that error is returned
(`Write` turns it into a panic). -/
def file.checkFile (f : file) (sorter : List os.FileInfo → List os.FileInfo) (dir : os.Dir)
    (now : time.Time) : Option (file × os.Dir) :=
  if f.handle.isSome then some (f, dir) else
  let dir := os.MkdirAll dir
  let files := sorter (os.ReadDir dir)
  match f.scan files with
  | Scan.panic => none
  | Scan.found e =>
    match os.OpenFile dir e.Name now.instant with
    | none => none
    | some dir => some ({ f with handle := some e.Name, size := e.Size }, dir)
  | Scan.absent =>
    match f.newFile dir now with
    | none => none
    | some (h, dir) => some ({ f with handle := some h }, dir)

/-- `(*file).Write(data)`; `now₁` is the clock reading of the recovery scan,
`now₂` that of the size check that follows. `none` is a panic. -/
def file.Write (f : file) (sorter : List os.FileInfo → List os.FileInfo) (dir : os.Dir)
    (now₁ now₂ : time.Time) (data : GoString) : Option Written :=
  if f.handle.isSome then f.write dir now₂ data
  else
    match f.checkFile sorter dir now₁ with
    | none => none
    | some (f, dir) => f.write dir now₂ data

/-- A run of `Write` calls, one per `(now, data)`, the clock staying at `now`
for the length of the call. -/
def file.WriteAll (f : file) (sorter : List os.FileInfo → List os.FileInfo) (dir : os.Dir) :
    List (time.Time × GoString) → Option (file × os.Dir)
  | [] => some (f, dir)
  | (now, data) :: rest =>
    match f.Write sorter dir now now data with
    | none => none
    | some w => w.f.WriteAll sorter w.dir rest

end rotatelogs

/-! ## package logrus and package hook -/

namespace logrus

/-- A `logrus.Level` (a `uint32`). -/
abbrev Level := Nat

def PanicLevel : Level := 0
def FatalLevel : Level := 1
def ErrorLevel : Level := 2
def WarnLevel : Level := 3
def InfoLevel : Level := 4
def DebugLevel : Level := 5
def TraceLevel : Level := 6

/-- `Level.String()`: the level's name, `"unknown"` for a value that is not a level. -/
def Level.String (level : Level) : String :=
  match level with
  | 0 => "panic"
  | 1 => "fatal"
  | 2 => "error"
  | 3 => "warning"
  | 4 => "info"
  | 5 => "debug"
  | 6 => "trace"
  | _ => "unknown"

end logrus

namespace hook

/-- The struct `hook` over a writer type `W` and a formatter type `F` (the mutex
is left out). -/
structure hook (W F : Type) where
  writer : Option W
  levels : List logrus.Level
  formatter : Option F

/-- `(*hook).SetWriter(w)`: a nil writer is replaced by the default one. -/
def hook.SetWriter {W F : Type} (h : hook W F) (defaultWriter : W) (w : Option W) : hook W F :=
  match w with
  | none => { h with writer := some defaultWriter }
  | some w => { h with writer := some w }

/-- `(*hook).SetFormatter(formatter)`. -/
def hook.SetFormatter {W F : Type} (h : hook W F) (defaultFormatter : F) (formatter : Option F) :
    hook W F :=
  match formatter with
  | none => { h with formatter := some defaultFormatter }
  | some g => { h with formatter := some g }

/-- The `for` loop of `SetLevels`: every level whose name is not `"unknown"` is
appended. -/
def appendKnown (acc : List logrus.Level) : List logrus.Level → List logrus.Level
  | [] => acc
  | level :: rest =>
    if logrus.Level.String level == "unknown" then appendKnown acc rest
    else appendKnown (acc ++ [level]) rest

/-- `(*hook).SetLevels(levels)`. -/
def hook.SetLevels {W F : Type} (h : hook W F) (levels : List logrus.Level) : hook W F :=
  let ls := appendKnown h.levels levels
  if ls.length = 0 then { h with levels := ls ++ [logrus.InfoLevel] } else { h with levels := ls }

/-- `New(w, format, levels...)`. -/
def New {W F : Type} (defaultWriter : W) (defaultFormatter : F) (w : Option W)
    (format : Option F) (levels : List logrus.Level) : hook W F :=
  let h : hook W F := ⟨none, [], none⟩
  let h := h.SetWriter defaultWriter w
  let h := h.SetLevels levels
  h.SetFormatter defaultFormatter format

/-- `(*hook).Levels()`. -/
def hook.Levels {W F : Type} (h : hook W F) : List logrus.Level := h.levels

end hook

/-! ## Concrete inputs used by the evaluations below -/

namespace rotatelogs

/-- The clock `s` seconds after 2006-01-02 15:04:05 (for `s < 55`). -/
def stampAt (s : Nat) : time.Time := ⟨s, ⟨2006, 1, 2, 15, 4, 5 + s⟩⟩

/-- The first clock reading past the four-digit years: 10000-01-01 00:00:00. -/
def stampYear10000 : time.Time := ⟨0, ⟨10000, 1, 1, 0, 0, 0⟩⟩

/-- `filepath.Abs` of a relative path when the working directory is `/`. -/
def absAtRoot (p : GoString) : GoString × Option GoString := (47 :: p, none)

/-- The run of `TestSlice`: ten writes of `"write data"`, one second apart. -/
def testSliceCalls : List (time.Time × GoString) :=
  (List.range 10).map fun i => (stampAt i, bytes "write data")

/-- A directory holding one full log file, named after the clock of `stampAt 0`. -/
def fullDir : os.Dir := os.plain [⟨bytes "20060102150405.log", bytes "write data", 0⟩]

/-- A writer with threshold 10 whose current file is the full file of `fullDir`. -/
def fullWriter : file := ⟨bytes "/tmp", defaultFormater, some (bytes "20060102150405.log"), 10, 10⟩

end rotatelogs

/-! # Theorems -/

/-! ## Strings and timestamps -/

namespace strings

theorem HasPrefix_append (p x : GoString) : HasPrefix (p ++ x) p = true := by
  simp [HasPrefix]

theorem TrimSuffix_append (x suf : GoString) : TrimSuffix (x ++ suf) suf = x := by
  simp [TrimSuffix, HasSuffix]

end strings

namespace time

theorem isDigitByte_add (d : Nat) (h : d < 10) : isDigitByte (48 + d) = true := by
  simp [isDigitByte]; omega

theorem digits_small (f u : Nat) (h : u < 10) : digits (f + 1) u = [48 + u] := by
  simp [digits, h]

theorem digits_step (f u : Nat) (h : 10 ≤ u) :
    digits (f + 1) u = digits f (u / 10) ++ [48 + u % 10] := by
  have : ¬ u < 10 := by omega
  simp [digits, this]

theorem appendInt_two (b : GoString) (n : Nat) (h : n < 100) :
    appendInt b (n : Int) 2 = b ++ [48 + n / 10, 48 + n % 10] := by
  have hneg : ¬ ((n : Int) < 0) := by omega
  by_cases h10 : n < 10
  · have e1 : n / 10 = 0 := by omega
    have e2 : n % 10 = n := by omega
    simp [appendInt, hneg, digits_small _ _ h10, e1, e2, List.replicate]
  · have hd : n / 10 < 10 := by omega
    simp [appendInt, hneg, digits_step _ _ (Nat.le_of_not_lt h10), digits_small _ _ hd]

theorem appendInt_four (b : GoString) (y : Nat) (h : y < 10000) :
    appendInt b (y : Int) 4 =
      b ++ [48 + y / 1000, 48 + y / 100 % 10, 48 + y / 10 % 10, 48 + y % 10] := by
  have hneg : ¬ ((y : Int) < 0) := by omega
  by_cases h10 : y < 10
  · have e1 : y / 1000 = 0 := by omega
    have e2 : y / 100 % 10 = 0 := by omega
    have e3 : y / 10 % 10 = 0 := by omega
    have e4 : y % 10 = y := by omega
    simp [appendInt, hneg, digits_small _ _ h10, e1, e2, e3, e4, List.replicate]
  · by_cases h100 : y < 100
    · have hd : y / 10 < 10 := by omega
      have e1 : y / 1000 = 0 := by omega
      have e2 : y / 100 % 10 = 0 := by omega
      have e3 : y / 10 % 10 = y / 10 := by omega
      simp [appendInt, hneg, digits_step _ _ (Nat.le_of_not_lt h10), digits_small _ _ hd,
        e1, e2, e3, List.replicate]
    · by_cases h1000 : y < 1000
      · have hd : y / 10 / 10 < 10 := by omega
        have hs : 10 ≤ y / 10 := by omega
        have e1 : y / 1000 = 0 := by omega
        have e2 : y / 100 % 10 = y / 10 / 10 := by omega
        have e3 : y / 10 % 10 = y / 10 % 10 := rfl
        simp [appendInt, hneg, digits_step _ _ (Nat.le_of_not_lt h10), digits_step _ _ hs,
          digits_small _ _ hd, e1, e2, List.replicate]
      · have hd : y / 10 / 10 / 10 < 10 := by omega
        have hs : 10 ≤ y / 10 := by omega
        have hs2 : 10 ≤ y / 10 / 10 := by omega
        have e1 : y / 1000 = y / 10 / 10 / 10 := by omega
        have e2 : y / 100 % 10 = y / 10 / 10 % 10 := by omega
        simp [appendInt, hneg, digits_step _ _ (Nat.le_of_not_lt h10), digits_step _ _ hs,
          digits_step _ _ hs2, digits_small _ _ hd, e1, e2]

end time

namespace time

theorem getnum_two (a b : Nat) (rest : GoString) (fixed : Bool) (ha : a < 10) (hb : b < 10) :
    getnum ((48 + a) :: (48 + b) :: rest) fixed = some (a * 10 + b, rest) := by
  simp [getnum, isDigit, isDigitByte_add, ha, hb]

theorem atoi_four (y3 y2 y1 y0 : Nat) (hy3 : y3 < 10) (hy2 : y2 < 10) (hy1 : y1 < 10)
    (hy0 : y0 < 10) :
    atoi [48 + y3, 48 + y2, 48 + y1, 48 + y0] =
      some ((((y3 * 10 + y2) * 10 + y1) * 10 + y0 : Nat) : Int) := by
  have a3 : ¬ (48 + y3 = 45) := by omega
  have b3 : ¬ (48 + y3 = 43) := by omega
  simp [atoi, leadingInt, isDigitByte_add, hy3, hy2, hy1, hy0, a3, b3]

theorem Parse_fourteen (y3 y2 y1 y0 m1 m0 d1 d0 h1 h0 i1 i0 s1 s0 : Nat)
    (hy3 : y3 < 10) (hy2 : y2 < 10) (hy1 : y1 < 10) (hy0 : y0 < 10)
    (hm1 : m1 < 10) (hm0 : m0 < 10) (hd1 : d1 < 10) (hd0 : d0 < 10)
    (hh1 : h1 < 10) (hh0 : h0 < 10) (hi1 : i1 < 10) (hi0 : i0 < 10)
    (hs1 : s1 < 10) (hs0 : s0 < 10)
    (hmonth : 1 ≤ m1 * 10 + m0 ∧ m1 * 10 + m0 ≤ 12)
    (hday : 1 ≤ d1 * 10 + d0 ∧
      d1 * 10 + d0 ≤ daysIn (m1 * 10 + m0) ((((y3 * 10 + y2) * 10 + y1) * 10 + y0 : Nat) : Int))
    (hhour : h1 * 10 + h0 < 24) (hmin : i1 * 10 + i0 < 60) (hsec : s1 * 10 + s0 < 60) :
    Parse [48 + y3, 48 + y2, 48 + y1, 48 + y0, 48 + m1, 48 + m0, 48 + d1, 48 + d0,
        48 + h1, 48 + h0, 48 + i1, 48 + i0, 48 + s1, 48 + s0] =
      some ⟨((((y3 * 10 + y2) * 10 + y1) * 10 + y0 : Nat) : Int), m1 * 10 + m0, d1 * 10 + d0,
        h1 * 10 + h0, i1 * 10 + i0, s1 * 10 + s0⟩ := by
  have hmonth' : ¬ (m1 * 10 + m0 = 0) ∧ ¬ (12 < m1 * 10 + m0) := by omega
  have hday' : ¬ (d1 * 10 + d0 < 1) ∧ ¬ (d1 * 10 + d0 >
      daysIn (m1 * 10 + m0) ((((y3 * 10 + y2) * 10 + y1) * 10 + y0 : Nat) : Int)) := by omega
  have hhour' : ¬ (24 ≤ h1 * 10 + h0) := by omega
  have hmin' : ¬ (60 ≤ i1 * 10 + i0) := by omega
  have hsec' : ¬ (60 ≤ s1 * 10 + s0) := by omega
  have hlen : ¬ ([48 + y3, 48 + y2, 48 + y1, 48 + y0, 48 + m1, 48 + m0, 48 + d1, 48 + d0,
        48 + h1, 48 + h0, 48 + i1, 48 + i0, 48 + s1, 48 + s0].length < 4) := by simp
  have hdig : isDigit [48 + y3, 48 + y2, 48 + y1, 48 + y0, 48 + m1, 48 + m0, 48 + d1, 48 + d0,
        48 + h1, 48 + h0, 48 + i1, 48 + i0, 48 + s1, 48 + s0] 0 = true := by
    simp [isDigit, isDigitByte_add, hy3]
  unfold Parse
  simp only [hlen, hdig, List.take, List.drop, atoi_four _ _ _ _ hy3 hy2 hy1 hy0,
    getnum_two _ _ _ _ hm1 hm0, getnum_two _ _ _ _ hd1 hd0, getnum_two _ _ _ _ hh1 hh0,
    getnum_two _ _ _ _ hi1 hi0, getnum_two _ _ _ _ hs1 hs0]
  simp [hmonth'.1, hmonth'.2, hhour', hmin', hsec', hday'.1, hday'.2, skipFraction]
  exact_mod_cast hday.2

end time

namespace time

theorem day_le_of_valid (c : Civil) (hv : c.valid) : c.day ≤ 31 := by
  obtain ⟨_, _, hm1, hm2, _, hd2, _⟩ := hv
  refine le_trans hd2 ?_
  unfold daysIn
  split
  · omega
  · have : c.month - 1 < 12 := by omega
    interval_cases (c.month - 1) <;> simp

theorem Format_eq (t : Time) (hv : t.civil.valid) (h0 : 0 ≤ t.civil.year)
    (h1 : t.civil.year ≤ 9999) :
    t.Format =
      [48 + t.civil.year.toNat / 1000, 48 + t.civil.year.toNat / 100 % 10,
        48 + t.civil.year.toNat / 10 % 10, 48 + t.civil.year.toNat % 10,
        48 + t.civil.month / 10, 48 + t.civil.month % 10,
        48 + t.civil.day / 10, 48 + t.civil.day % 10,
        48 + t.civil.hour / 10, 48 + t.civil.hour % 10,
        48 + t.civil.minute / 10, 48 + t.civil.minute % 10,
        48 + t.civil.second / 10, 48 + t.civil.second % 10] := by
  have hd3 := day_le_of_valid t.civil hv
  obtain ⟨_, _, hm1, hm2, hd1, hd2, hh, hmi, hs⟩ := hv
  have hy : t.civil.year = ((t.civil.year.toNat : Nat) : Int) := by omega
  have hyl : t.civil.year.toNat < 10000 := by omega
  unfold Time.Format
  rw [hy]
  simp only [Int.toNat_ofNat]
  rw [appendInt_four _ _ hyl, appendInt_two _ _ (by omega), appendInt_two _ _ (by omega),
    appendInt_two _ _ (by omega), appendInt_two _ _ (by omega), appendInt_two _ _ (by omega)]
  simp

theorem Parse_Format (t : Time) (hv : t.civil.valid) (h0 : 0 ≤ t.civil.year)
    (h1 : t.civil.year ≤ 9999) : Parse t.Format = some t.civil := by
  rw [Format_eq t hv h0 h1]
  have hd3 := day_le_of_valid t.civil hv
  obtain ⟨_, _, hm1, hm2, hd1, hd2, hh, hmi, hs⟩ := hv
  have hyl : t.civil.year.toNat < 10000 := by omega
  have ey : (((t.civil.year.toNat / 1000 * 10 + t.civil.year.toNat / 100 % 10) * 10 +
      t.civil.year.toNat / 10 % 10) * 10 + t.civil.year.toNat % 10) = t.civil.year.toNat := by
    omega
  have eyi : ((t.civil.year.toNat : Nat) : Int) = t.civil.year := by omega
  have e2 : ∀ n : Nat, n / 10 * 10 + n % 10 = n := fun n => by omega
  rw [Parse_fourteen _ _ _ _ _ _ _ _ _ _ _ _ _ _ (by omega) (by omega) (by omega) (by omega)
    (by omega) (by omega) (by omega) (by omega) (by omega) (by omega) (by omega) (by omega)
    (by omega) (by omega) (by rw [e2]; exact ⟨hm1, hm2⟩)
    (by rw [e2, e2, ey, eyi]; exact ⟨hd1, hd2⟩) (by omega) (by omega) (by omega)]
  simp only [e2, ey, eyi]

end time

namespace sort

theorem insertNewestFirst_isSlice : IsSlice insertNewestFirst := by
  intro l
  refine ⟨List.perm_insertionSort _ l, ?_⟩
  have hs : List.Sorted (fun a b : os.FileInfo => b.ModTime ≤ a.ModTime)
      (insertNewestFirst l) := by
    haveI : IsTotal os.FileInfo (fun a b => b.ModTime ≤ a.ModTime) :=
      ⟨fun a b => le_total b.ModTime a.ModTime⟩
    haveI : IsTrans os.FileInfo (fun a b => b.ModTime ≤ a.ModTime) :=
      ⟨fun a b c hab hbc => le_trans hbc hab⟩
    exact List.sorted_insertionSort _ l
  exact List.Pairwise.imp (fun h => by omega) hs

end sort

namespace time

theorem digits_isDigit (f u : Nat) : ∀ c ∈ digits f u, isDigitByte c = true := by
  induction f generalizing u with
  | zero => simp [digits]
  | succ f ih =>
    intro c hc
    unfold digits at hc
    split at hc
    · simp only [List.mem_singleton] at hc
      subst hc
      exact isDigitByte_add u (by omega)
    · rcases List.mem_append.mp hc with h1 | h2
      · exact ih _ c h1
      · simp only [List.mem_singleton] at h2
        subst h2
        exact isDigitByte_add _ (by omega)

theorem leadingInt_digits (l : GoString) (x : Nat) (hl : ∀ c ∈ l, isDigitByte c = true) :
    leadingInt l x = (digitsValue l x, []) := by
  induction l generalizing x with
  | nil => rfl
  | cons c rest ih =>
    have hc := hl c (List.mem_cons_self _ _)
    simp only [leadingInt, hc, if_true]
    rw [ih _ fun c hc => hl c (List.mem_cons_of_mem _ hc)]
    rfl

theorem digitsValue_digits (f u : Nat) (hu : u < 10 ^ f) : digitsValue (digits f u) 0 = u := by
  induction f generalizing u with
  | zero => simp at hu; subst hu; rfl
  | succ f ih =>
    unfold digits
    split
    · simp [digitsValue]
    · have hlt : u / 10 < 10 ^ f := by
        rw [Nat.div_lt_iff_lt_mul (by decide)]
        rw [pow_succ] at hu
        exact hu
      have := ih (u / 10) hlt
      unfold digitsValue at this ⊢
      rw [List.foldl_append, this]
      simp only [List.foldl_cons, List.foldl_nil]
      omega

theorem digitsValue_zeros (k : Nat) (l : GoString) :
    digitsValue (List.replicate k 48 ++ l) 0 = digitsValue l 0 := by
  induction k with
  | zero => rfl
  | succ k ih =>
    rw [List.replicate_succ, List.cons_append]
    unfold digitsValue at ih ⊢
    rw [List.foldl_cons]
    simpa using ih

theorem atoi_digits (l : GoString) (hl : ∀ c ∈ l, isDigitByte c = true) :
    atoi l = some ((digitsValue l 0 : Nat) : Int) := by
  cases l with
  | nil => rfl
  | cons c rest =>
    have hc : isDigitByte c = true := hl c (List.mem_cons_self _ _)
    have hc45 : ¬ c = 45 := by
      intro h; rw [h] at hc; exact absurd hc (by decide)
    have hc43 : ¬ c = 43 := by
      intro h; rw [h] at hc; exact absurd hc (by decide)
    have h1 : (some c == some 45) = false := by simp [hc45]
    have h2 : (some c == some 43) = false := by simp [hc43]
    simp only [atoi, List.head?_cons, h1, h2, Bool.or_self, Bool.false_eq_true, if_false]
    rw [leadingInt_digits _ _ hl]

theorem atoi_minus (l : GoString) (hl : ∀ c ∈ l, isDigitByte c = true) :
    atoi (45 :: l) = some (-((digitsValue l 0 : Nat) : Int)) := by
  simp only [atoi, List.head?_cons, beq_self_eq_true, Bool.true_or, if_true,
    List.drop_succ_cons, List.drop_zero]
  rw [leadingInt_digits _ _ hl]

theorem atoi_appendInt (x : Int) (w : Nat) (hx : x.natAbs < 10 ^ 20) :
    atoi (appendInt [] x w) = some x := by
  have hall : ∀ c ∈ List.replicate (w - (digits 20 x.natAbs).length) 48 ++ digits 20 x.natAbs,
      isDigitByte c = true := by
    intro c hc
    rcases List.mem_append.mp hc with h1 | h2
    · rw [List.eq_of_mem_replicate h1]; rfl
    · exact digits_isDigit _ _ c h2
  have hval : digitsValue
      (List.replicate (w - (digits 20 x.natAbs).length) 48 ++ digits 20 x.natAbs) 0 = x.natAbs := by
    rw [digitsValue_zeros, digitsValue_digits _ _ hx]
  by_cases hneg : x < 0
  · have e : appendInt [] x w =
        45 :: (List.replicate (w - (digits 20 x.natAbs).length) 48 ++ digits 20 x.natAbs) := by
      simp [appendInt, hneg]
    rw [e, atoi_minus _ hall, hval]
    congr 1
    omega
  · have e : appendInt [] x w =
        List.replicate (w - (digits 20 x.natAbs).length) 48 ++ digits 20 x.natAbs := by
      simp [appendInt, hneg]
    rw [e, atoi_digits _ hall, hval]
    congr 1
    omega

end time

namespace time

theorem Format_split (t : Time) (hv : t.civil.valid) :
    t.Format = appendInt [] t.civil.year 4 ++
      [48 + t.civil.month / 10, 48 + t.civil.month % 10,
        48 + t.civil.day / 10, 48 + t.civil.day % 10,
        48 + t.civil.hour / 10, 48 + t.civil.hour % 10,
        48 + t.civil.minute / 10, 48 + t.civil.minute % 10,
        48 + t.civil.second / 10, 48 + t.civil.second % 10] := by
  have hd3 := day_le_of_valid t.civil hv
  obtain ⟨_, _, hm1, hm2, hd1, hd2, hh, hmi, hs⟩ := hv
  unfold Time.Format
  simp only []
  rw [appendInt_two _ _ (by omega), appendInt_two _ _ (by omega), appendInt_two _ _ (by omega),
    appendInt_two _ _ (by omega), appendInt_two _ _ (by omega)]
  simp

theorem Format_injective (t₁ t₂ : Time) (h₁ : t₁.civil.valid) (h₂ : t₂.civil.valid)
    (h : t₁.Format = t₂.Format) : t₁.civil = t₂.civil := by
  rw [Format_split t₁ h₁, Format_split t₂ h₂] at h
  obtain ⟨hy, ht⟩ := List.append_inj' h rfl
  have hd₁ := day_le_of_valid _ h₁
  have hd₂ := day_le_of_valid _ h₂
  have a₁ := atoi_appendInt t₁.civil.year 4 (by have := h₁.1; have := h₁.2.1; omega)
  have a₂ := atoi_appendInt t₂.civil.year 4 (by have := h₂.1; have := h₂.2.1; omega)
  rw [hy, a₂] at a₁
  have hyear : t₁.civil.year = t₂.civil.year := (Option.some.inj a₁).symm
  simp only [List.cons.injEq, and_true] at ht
  obtain ⟨e1, e2, e3, e4, e5, e6, e7, e8, e9, e10⟩ := ht
  cases hc₁ : t₁.civil with
  | mk y m d hh mi s =>
    cases hc₂ : t₂.civil with
    | mk y' m' d' hh' mi' s' =>
      rw [hc₁, hc₂] at hyear e1 e2 e3 e4 e5 e6 e7 e8 e9 e10
      simp only at hyear e1 e2 e3 e4 e5 e6 e7 e8 e9 e10
      have : m = m' := by omega
      have : d = d' := by omega
      have : hh = hh' := by omega
      have : mi = mi' := by omega
      have : s = s' := by omega
      subst_vars
      rfl

end time

/-! ## The directory model -/

namespace os

theorem subdirs_Write (dir : Dir) (h d : GoString) (now : Int) :
    subdirs (Write dir h d now) = subdirs dir := by
  cases dir <;> rfl

end os

namespace rotatelogs

theorem wrapInt64_eq (x : Int) (h0 : -9223372036854775808 ≤ x) (h1 : x < 9223372036854775808) :
    wrapInt64 x = x := by
  unfold wrapInt64
  omega

end rotatelogs

/-! ## The name formatter, the writer and the hook -/

namespace rotatelogs

/-- C1 (as stated, refuted). The name `Format` gives the valid clock reading
10000-01-01 00:00:00 has a five-digit year, and `IsFormat` rejects it. -/
theorem IsFormat_Format_year_10000 :
    stampYear10000.civil.valid ∧
      (FileFormat.mk []).Format stampYear10000 = bytes "100000101000000.log" ∧
      (FileFormat.mk []).IsFormat ((FileFormat.mk []).Format stampYear10000) = some false := by
  decide

/-- C1 (amended). Naming round trip: for every prefix `p` and every timestamp
`t` whose year is between 0 and 9999, `IsFormat(Format(t))` is true. -/
theorem IsFormat_Format_of_year (p : GoString) (t : time.Time) (hv : t.civil.valid)
    (h0 : 0 ≤ t.civil.year) (h1 : t.civil.year ≤ 9999) :
    (FileFormat.mk p).IsFormat ((FileFormat.mk p).Format t) = some true := by
  unfold FileFormat.IsFormat FileFormat.Format
  simp only [List.append_assoc, strings.HasPrefix_append]
  rw [← List.append_assoc, strings.TrimSuffix_append]
  simp [time.Parse_Format t hv h0 h1]

theorem IsFormat_Format_of_year_witness :
    (FileFormat.mk (bytes "info_")).IsFormat ((FileFormat.mk (bytes "info_")).Format (stampAt 0))
      = some true :=
  IsFormat_Format_of_year (bytes "info_") (stampAt 0) (by decide) (by decide) (by decide)

/-- C2 (evaluation at the failing input). With the empty prefix, `IsFormat`
accepts the name `20060102150405`, which has no `.log` suffix and which `Format`
produces for no timestamp; it also accepts a name with a fractional second. -/
theorem IsFormat_accepts_missing_suffix :
    (FileFormat.mk []).IsFormat (bytes "20060102150405") = some true ∧
      (∀ t : time.Time, (FileFormat.mk []).Format t ≠ bytes "20060102150405") ∧
      (FileFormat.mk []).IsFormat (bytes "20060102150405.5.log") = some true := by
  refine ⟨by decide, ?_, by decide⟩
  intro t h
  have hs : logSuffix <:+ (FileFormat.mk []).Format t := List.suffix_append _ _
  have hno : ¬ logSuffix <:+ bytes "20060102150405" := by decide
  exact hno (h ▸ hs)

/-- C4 (evaluation at the failing input). The current file is full (10 of 10
bytes) and the clock still shows the second it is named after: `Write` takes the
rotation branch, and the file that becomes current is the same, already existing
file; it then holds 11 bytes while `size` is 1. -/
theorem Write_rotation_reopens_existing :
    os.content fullDir (bytes "20060102150405.log") = some (bytes "write data") ∧
      (fullWriter.Write sort.insertNewestFirst fullDir (stampAt 0) (stampAt 0) (bytes "x")).map
          (fun w => (w.f.handle, w.f.size, w.dir)) =
        some (some (bytes "20060102150405.log"), 1,
          os.plain [⟨bytes "20060102150405.log", bytes "write datax", 0⟩]) := by
  decide

/-- C6 (evaluation at the failing input). The directory holds one full log file
(10 bytes, threshold 10) named after the current second: recovery finds no
candidate and then opens that very file as the current one, with `size = 0`. -/
theorem checkFile_resumes_full_file :
    os.ReadDir fullDir = [⟨bytes "20060102150405.log", 10, 0⟩] ∧
      ((New absAtRoot (bytes "tmp") none 10).1.checkFile sort.insertNewestFirst fullDir
          (stampAt 0)).map (fun r => (r.1.handle, r.1.size, r.1.maxSize, r.2)) =
        some (some (bytes "20060102150405.log"), 0, 10, fullDir) := by
  decide

/-- C8. Construction defaults: the threshold is `maxSize` when positive and
104857600 otherwise; the formatter is the given one, or the empty-prefix
`FileFormat` when nil; the directory is `Abs("log")` for an empty `dir` and
`Abs(dir)` otherwise; no file is open and `size` is 0; the error is the one of
`Abs` (none when path resolution succeeds). `New` neither reads nor changes the
directory: it is a function of its arguments only. -/
theorem New_defaults (Abs : GoString → GoString × Option GoString) (dir : GoString)
    (formater : Option FileFormater) (maxSize : Int) :
    (New Abs dir formater maxSize).1.maxSize = (if maxSize > 0 then maxSize else 104857600) ∧
      (New Abs dir formater maxSize).1.format =
        formater.getD (FileFormat.toFormater ⟨[]⟩) ∧
      (New Abs dir formater maxSize).1.absDir =
        (Abs (if dir = [] then bytes "log" else dir)).1 ∧
      (New Abs dir formater maxSize).1.handle = none ∧
      (New Abs dir formater maxSize).1.size = 0 ∧
      (New Abs dir formater maxSize).2 = (Abs (if dir = [] then bytes "log" else dir)).2 := by
  unfold New
  cases formater <;> by_cases hm : maxSize > 0 <;> by_cases hd : dir = [] <;>
    simp [hm, hd, defaultFormater, defaultMaxSize]

/-- C9 (evaluation at the failing input). With the prefix `app.log`, the name
`app.log` passes the prefix test and the slice panics: `IsFormat` returns no
boolean. -/
theorem IsFormat_panics_on_overlap :
    strings.HasPrefix (bytes "app.log") (bytes "app.log") = true ∧
      (strings.TrimSuffix (bytes "app.log") logSuffix).length < (bytes "app.log").length ∧
      (FileFormat.mk (bytes "app.log")).IsFormat (bytes "app.log") = none := by
  decide

end rotatelogs

namespace rotatelogs

end rotatelogs

namespace rotatelogs

end rotatelogs

namespace rotatelogs

theorem defaultFormater_Format (t : time.Time) :
    defaultFormater.Format t = t.Format ++ logSuffix := by
  unfold defaultFormater FileFormat.toFormater FileFormat.Format
  exact congrArg (fun l => l ++ logSuffix) (List.nil_append _)

theorem defaultFormater_Format_injective (t₁ t₂ : time.Time) (h₁ : t₁.civil.valid)
    (h₂ : t₂.civil.valid) (h : defaultFormater.Format t₁ = defaultFormater.Format t₂) :
    t₁.civil = t₂.civil := by
  rw [defaultFormater_Format, defaultFormater_Format] at h
  exact time.Format_injective t₁ t₂ h₁ h₂ (List.append_cancel_right h)

theorem Write_map_fresh (fs : List os.DiskFile) (name d : GoString) (now : Int)
    (hfresh : ∀ x ∈ fs, x.name ≠ name) :
    (fs.map fun f => if f.name == name then (⟨f.name, f.data ++ d, now⟩ : os.DiskFile) else f)
      = fs := by
  induction fs with
  | nil => rfl
  | cons a rest ih =>
    have ha : ¬ a.name = name := hfresh a (List.mem_cons_self _ _)
    rw [List.map_cons, ih fun x hx => hfresh x (List.mem_cons_of_mem _ hx)]
    simp [ha]

theorem any_fresh (fs : List os.DiskFile) (name : GoString)
    (hfresh : ∀ x ∈ fs, x.name ≠ name) : fs.any (fun f => f.name == name) = false := by
  rw [Bool.eq_false_iff]
  intro h
  obtain ⟨a, ha, hn⟩ := List.any_eq_true.mp h
  exact hfresh a ha (by simpa using hn)

/-- A full-size payload written through an open, full writer goes to a new file
when the name `Format(now)` is not taken. -/
theorem Write_full_fresh (f : file) (sorter : List os.FileInfo → List os.FileInfo)
    (fs : List os.DiskFile) (t : time.Time) (d : GoString) (M : Int)
    (hopen : f.handle.isSome = true) (hsize : f.size = M) (hmax : f.maxSize = M)
    (hM : 0 < M) (hM2 : M < 4611686018427387904) (hd : (d.length : Int) = M)
    (hfresh : ∀ x ∈ fs, x.name ≠ f.format.Format t) :
    f.Write sorter (os.plain fs) t t d =
      some ⟨{ f with handle := some (f.format.Format t), size := M },
        os.plain (fs ++ [⟨f.format.Format t, d, t.instant⟩]), d.length, false⟩ := by
  have hw : wrapInt64 (f.size + M) = M + M := by
    rw [hsize]
    exact wrapInt64_eq _ (by omega) (by omega)
  have hgt : ¬ (M + M ≤ f.maxSize) := by omega
  have hnew := any_fresh fs _ hfresh
  simp only [file.Write, hopen, if_true, file.write, hw, hgt, if_false, file.newFile, os.OpenFile,
    os.plain, List.any_nil, hnew, Bool.false_eq_true, Option.map_some', os.Write,
    List.map_append, List.map_cons, List.map_nil, beq_self_eq_true, List.nil_append,
    Write_map_fresh fs _ d t.instant hfresh, hd]

theorem WriteAll_open (sorter : List os.FileInfo → List os.FileInfo) (M : Int)
    (hM : 0 < M) (hM2 : M < 4611686018427387904) (calls : List (time.Time × GoString)) :
    ∀ (f : file) (fs : List os.DiskFile), f.handle.isSome = true → f.size = M → f.maxSize = M →
      f.format = defaultFormater →
      (∀ c ∈ calls, (c.2.length : Int) = M) → (∀ c ∈ calls, c.1.civil.valid) →
      calls.Pairwise (fun a b => a.1.civil ≠ b.1.civil) →
      (∀ c ∈ calls, ∀ x ∈ fs, x.name ≠ defaultFormater.Format c.1) →
      ∃ g, f.WriteAll sorter (os.plain fs) calls =
        some (g, os.plain
          (fs ++ calls.map fun c => ⟨defaultFormater.Format c.1, c.2, c.1.instant⟩)) := by
  induction calls with
  | nil =>
    intro f fs _ _ _ _ _ _ _ _
    exact ⟨f, by simp [file.WriteAll]⟩
  | cons c rest ih =>
    intro f fs hopen hsize hmax hfmt hlen hvalid hdist hfresh
    obtain ⟨t, d⟩ := c
    have hd : (d.length : Int) = M := hlen (t, d) (List.mem_cons_self _ _)
    have hfr : ∀ x ∈ fs, x.name ≠ f.format.Format t := by
      rw [hfmt]; exact hfresh (t, d) (List.mem_cons_self _ _)
    have hstep := Write_full_fresh f sorter fs t d M hopen hsize hmax hM hM2 hd hfr
    obtain ⟨hd1, hd2⟩ := List.pairwise_cons.mp hdist
    obtain ⟨g, hg⟩ := ih { f with handle := some (f.format.Format t), size := M }
      (fs ++ [⟨f.format.Format t, d, t.instant⟩]) rfl rfl hmax hfmt
      (fun c hc => hlen c (List.mem_cons_of_mem _ hc))
      (fun c hc => hvalid c (List.mem_cons_of_mem _ hc)) hd2
      (by
        intro c hc x hx
        rcases List.mem_append.mp hx with hx1 | hx2
        · exact hfresh c (List.mem_cons_of_mem _ hc) x hx1
        · simp only [List.mem_singleton] at hx2
          subst hx2
          rw [hfmt]
          intro heq
          exact hd1 c hc (defaultFormater_Format_injective t c.1
            (hvalid (t, d) (List.mem_cons_self _ _)) (hvalid c (List.mem_cons_of_mem _ hc)) heq))
    refine ⟨g, ?_⟩
    rw [file.WriteAll, hstep]
    simp only []
    rw [hg, hfmt]
    simp

end rotatelogs

namespace rotatelogs

theorem entries_of_ReadDir_nil (dir : os.Dir) (hdir : os.ReadDir dir = []) :
    os.files dir = [] ∧ os.subdirs dir = [] := by
  unfold os.ReadDir at hdir
  obtain ⟨h1, h2⟩ := List.append_eq_nil.mp hdir
  exact ⟨List.map_eq_nil_iff.mp h1, List.map_eq_nil_iff.mp h2⟩

theorem Write_first (f : file) (sorter : List os.FileInfo → List os.FileInfo)
    (hsort : sort.IsSlice sorter) (dir : os.Dir) (hdir : os.ReadDir dir = [])
    (t : time.Time) (d : GoString) (M : Int)
    (hnil : f.handle = none) (hsize : f.size = 0) (hmax : f.maxSize = M)
    (hM2 : M < 4611686018427387904) (hd : (d.length : Int) = M) :
    f.Write sorter dir t t d =
      some ⟨{ f with handle := some (f.format.Format t), size := M },
        os.plain [⟨f.format.Format t, d, t.instant⟩], d.length, false⟩ := by
  have hsorted : sorter [] = [] := List.Perm.eq_nil (hsort []).1
  have hmk : os.MkdirAll dir = some ⟨[], []⟩ := by
    obtain ⟨h1, h2⟩ := entries_of_ReadDir_nil dir hdir
    cases dir with
    | none => rfl
    | some s =>
      cases s with
      | mk fs ds =>
        simp only [os.files, os.subdirs] at h1 h2
        subst h1 h2
        rfl
  have hw : wrapInt64 (0 + M) = M := by
    rw [zero_add]
    exact wrapInt64_eq _ (by omega) (by omega)
  have hcheck : f.checkFile sorter dir t =
      some ({ f with handle := some (f.format.Format t) },
        os.plain [⟨f.format.Format t, [], t.instant⟩]) := by
    unfold file.checkFile
    rw [hmk]
    have hread : os.ReadDir (some ⟨[], []⟩) = [] := rfl
    simp only [hnil, Option.isSome_none, Bool.false_eq_true, if_false, hread, hsorted]
    rfl
  unfold file.Write
  rw [hcheck]
  simp only [hnil, Option.isSome_none, Bool.false_eq_true, if_false]
  unfold file.write
  simp only [hsize, hd, hw, hmax, le_refl, if_true]
  simp [os.Write, os.plain]

/-- C7. One file per full-size payload: a writer built by `New(dir, nil, M)`
with `0 < M` (and `M < 2^62`, so that `M + M` is an `int64`) on an empty or
missing directory, given any run of `Write` calls of exactly `M` bytes each with
the clock in a different second at each call, leaves one file per call, in call
order: the file named after the call's clock reading, holding exactly that call's
payload, hence of size `M`; the names are pairwise different. -/
theorem WriteAll_one_file_per_payload (Abs : GoString → GoString × Option GoString)
    (dirname : GoString) (sorter : List os.FileInfo → List os.FileInfo)
    (hsort : sort.IsSlice sorter) (dir : os.Dir) (hdir : os.ReadDir dir = [])
    (M : Int) (hM : 0 < M) (hM2 : M < 4611686018427387904)
    (calls : List (time.Time × GoString)) (hlen : ∀ c ∈ calls, (c.2.length : Int) = M)
    (hvalid : ∀ c ∈ calls, c.1.civil.valid)
    (hdist : calls.Pairwise (fun a b => a.1.civil ≠ b.1.civil)) :
    ∃ g dir', (New Abs dirname none M).1.WriteAll sorter dir calls = some (g, dir') ∧
      os.files dir' = calls.map (fun c => ⟨defaultFormater.Format c.1, c.2, c.1.instant⟩) ∧
      os.subdirs dir' = [] ∧
      (os.files dir').length = calls.length ∧
      (∀ x ∈ os.files dir', (x.data.length : Int) = M) ∧
      (os.files dir').map (fun x => x.data) = calls.map (fun c => c.2) ∧
      ((os.files dir').map (fun x => x.name)).Nodup := by
  have hfacts : ∀ fs : List os.DiskFile,
      fs = calls.map (fun c => ⟨defaultFormater.Format c.1, c.2, c.1.instant⟩) →
      fs.length = calls.length ∧ (∀ x ∈ fs, (x.data.length : Int) = M) ∧
      fs.map (fun x => x.data) = calls.map (fun c => c.2) ∧
      (fs.map (fun x => x.name)).Nodup := by
    intro fs hfs
    subst hfs
    refine ⟨by simp, ?_, by simp, ?_⟩
    · intro x hx
      obtain ⟨c, hc, rfl⟩ := List.mem_map.mp hx
      exact hlen c hc
    · rw [List.map_map]
      refine (List.pairwise_map.mpr ?_ : List.Pairwise (· ≠ ·) _)
      refine List.Pairwise.imp_of_mem ?_ hdist
      intro a b ha hb hab heq
      exact hab (defaultFormater_Format_injective a.1 b.1 (hvalid a ha) (hvalid b hb) heq)
  have hnew : New Abs dirname none M =
      (if dirname = [] then
        (⟨(Abs (bytes "log")).1, defaultFormater, none, 0, M⟩, (Abs (bytes "log")).2)
      else (⟨(Abs dirname).1, defaultFormater, none, 0, M⟩, (Abs dirname).2)) := by
    simp [New, hM]
  have hf : ∃ a, (New Abs dirname none M).1 = ⟨a, defaultFormater, none, 0, M⟩ := by
    rw [hnew]
    split
    · exact ⟨_, rfl⟩
    · exact ⟨_, rfl⟩
  obtain ⟨a, ha⟩ := hf
  rw [ha]
  cases calls with
  | nil =>
    obtain ⟨h1, h2⟩ := entries_of_ReadDir_nil dir hdir
    refine ⟨_, dir, rfl, ?_⟩
    rw [h1]
    exact ⟨rfl, h2, rfl, by simp, rfl, by simp⟩
  | cons c rest =>
    obtain ⟨t, d⟩ := c
    have hd : (d.length : Int) = M := hlen (t, d) (List.mem_cons_self _ _)
    have hstep := Write_first ⟨a, defaultFormater, none, 0, M⟩ sorter hsort dir hdir t d M rfl rfl
      rfl hM2 hd
    obtain ⟨hd1, hd2⟩ := List.pairwise_cons.mp hdist
    obtain ⟨g, hg⟩ := WriteAll_open sorter M hM hM2 rest
      ⟨a, defaultFormater, some (defaultFormater.Format t), M, M⟩
      [⟨defaultFormater.Format t, d, t.instant⟩] rfl rfl rfl rfl
      (fun c hc => hlen c (List.mem_cons_of_mem _ hc))
      (fun c hc => hvalid c (List.mem_cons_of_mem _ hc)) hd2
      (by
        intro c hc x hx
        simp only [List.mem_singleton] at hx
        subst hx
        intro heq
        exact hd1 c hc (defaultFormater_Format_injective t c.1
          (hvalid (t, d) (List.mem_cons_self _ _)) (hvalid c (List.mem_cons_of_mem _ hc)) heq))
    refine ⟨g, os.plain ([⟨defaultFormater.Format t, d, t.instant⟩] ++
      rest.map fun c => ⟨defaultFormater.Format c.1, c.2, c.1.instant⟩), ?_, ?_⟩
    · rw [file.WriteAll, hstep]
      exact hg
    · exact ⟨rfl, rfl, hfacts _ rfl⟩

end rotatelogs

namespace rotatelogs

theorem WriteAll_one_file_per_payload_witness :
    ∃ g dir', (New absAtRoot (bytes "tmp") none 10).1.WriteAll sort.insertNewestFirst none
        testSliceCalls = some (g, dir') ∧
      (os.files dir').length = 10 ∧ ∀ x ∈ os.files dir', (x.data.length : Int) = 10 := by
  obtain ⟨g, dir', h, -, -, hlen, hall, -, -⟩ := WriteAll_one_file_per_payload absAtRoot
    (bytes "tmp") sort.insertNewestFirst sort.insertNewestFirst_isSlice none rfl 10 (by decide)
    (by decide) testSliceCalls (by decide) (by decide) (by decide)
  exact ⟨g, dir', h, hlen, hall⟩

end rotatelogs

namespace hook

theorem appendKnown_eq (acc ls : List logrus.Level) :
    appendKnown acc ls = acc ++ ls.filter fun l => logrus.Level.String l != "unknown" := by
  induction ls generalizing acc with
  | nil => simp [appendKnown]
  | cons l rest ih =>
    unfold appendKnown
    by_cases h : (logrus.Level.String l == "unknown") = true
    · have h' : (logrus.Level.String l != "unknown") = false := by simp [bne, h]
      rw [if_pos h, ih, List.filter_cons, h']
      rfl
    · have h' : (logrus.Level.String l != "unknown") = true := by simp [bne, h]
      rw [if_neg h, ih, List.filter_cons, h']
      simp

/-- C10. Levels a hook fires on: `New(w, f, ls...).Levels()` is the sub-list of
`ls` whose `String()` is not `"unknown"`, in the given order, or `[InfoLevel]`
when that sub-list is empty; it is never empty and holds no unknown level; for
Debug, Info, Warn it is these three. -/
theorem New_Levels {W F : Type} (defaultWriter : W) (defaultFormatter : F) (w : Option W)
    (format : Option F) (ls : List logrus.Level) :
    (New defaultWriter defaultFormatter w format ls).Levels =
        (if ls.filter (fun l => logrus.Level.String l != "unknown") = [] then [logrus.InfoLevel]
          else ls.filter fun l => logrus.Level.String l != "unknown") ∧
      (New defaultWriter defaultFormatter w format ls).Levels ≠ [] ∧
      (∀ l ∈ (New defaultWriter defaultFormatter w format ls).Levels,
        logrus.Level.String l ≠ "unknown") ∧
      (New defaultWriter defaultFormatter w format
          [logrus.DebugLevel, logrus.InfoLevel, logrus.WarnLevel]).Levels =
        [logrus.DebugLevel, logrus.InfoLevel, logrus.WarnLevel] := by
  have hlev : ∀ ks : List logrus.Level, (New defaultWriter defaultFormatter w format ks).Levels =
      (if ks.filter (fun l => logrus.Level.String l != "unknown") = [] then [logrus.InfoLevel]
        else ks.filter fun l => logrus.Level.String l != "unknown") := by
    intro ks
    cases w <;> cases format <;>
      simp only [New, hook.SetWriter, hook.SetFormatter, hook.SetLevels, hook.Levels,
        appendKnown_eq, List.nil_append, List.length_eq_zero] <;>
      split <;> simp_all
  refine ⟨hlev ls, ?_, ?_, ?_⟩
  · rw [hlev]
    split
    · simp
    · assumption
  · rw [hlev]
    intro l hl
    split at hl
    · simp only [List.mem_singleton] at hl
      subst hl
      decide
    · have := (List.mem_filter.mp hl).2
      simpa using this
  · rw [hlev]
    decide

end hook
